import Mathlib

/-!
Verification of a small string-search library (Boyer-Moore with the
bad-character rule, Knuth-Morris-Pratt, Rabin-Karp with a rolling hash)
and of a secondary binary-search utility over a sorted array.

Strings are embedded as `List Char`, Python's `ord` as `Char.toNat`,
machine integers as `Int`/`Nat` (Python integers are unbounded, and
Python's `%` on a positive modulus agrees with `Int.emod`).  Fallible
operations (list indexing, loops that might in principle not terminate)
return `Option`: a `none` result models an out-of-range index or an
exhausted fuel bound, both of which are proved unreachable.
-/

set_option maxHeartbeats 1000000

/-- Code point of a character, Python's `ord`. -/
def ord (c : Char) : Int := (c.toNat : Int)

/-- Default character handed to `List.getD` at indices that are proved
to be in bounds, where the default is never read. -/
def dChar : Char := 'x'

/-- Bounds-checked list indexing at an integer index: `some` exactly when
`0 ≤ i < length`.  A `none` models an access outside the list. -/
def pyGet? {α : Type} (l : List α) (i : Int) : Option α :=
  if 0 ≤ i ∧ i < (l.length : Int) then l.get? i.toNat else none

/-! ## task_2.py: binary search over a sorted array

`binary_search(arr, target)` returns `(iterations, upper_bound)`.  The
loop is embedded with an explicit fuel argument; exhausting the fuel
yields `none`, which is proved unreachable. -/

/-- The `while left <= right` loop of `binary_search`, followed by the
post-loop upper-bound selection.  State: `left`, `right`, `iterations`. -/
def binary_search_loop {α : Type} [LinearOrder α] (arr : List α) (target : α) :
    Nat → Int → Int → Nat → Option (Nat × Option α)
  | 0, _, _, _ => none
  | fuel+1, left, right, iterations =>
    if left ≤ right then
      let iters := iterations + 1
      let mid := Int.fdiv (left + right) 2
      match pyGet? arr mid with
      | none => none
      | some x =>
        if x = target then some (iters, some x)
        else if x < target then binary_search_loop arr target fuel (mid + 1) right iters
        else binary_search_loop arr target fuel left (mid - 1) iters
    else
      if left < (arr.length : Int) then
        match pyGet? arr left with
        | none => none
        | some x => some (iterations, some x)
      else some (iterations, none)

/-- `binary_search` from task_2.py: iterative binary search over a sorted
array, returning the iteration count together with either the found
element, or the smallest element at or above the target, or `none`. -/
def binary_search {α : Type} [LinearOrder α] (arr : List α) (target : α) :
    Option (Nat × Option α) :=
  binary_search_loop arr target (arr.length + 1) 0 ((arr.length : Int) - 1) 0

/-! ## task_3.py: the three matchers

Python dictionaries keyed by characters are embedded as association
lists with in-place overwrite (`dictSet`) and `setdefault`. -/

/-- `table[k] = v` on a dict: overwrite the binding if the key is
present, else append the new binding. -/
def dictSet (t : List (Char × Nat)) (k : Char) (v : Nat) : List (Char × Nat) :=
  match t with
  | [] => [(k, v)]
  | (k0, v0) :: rest => if k0 = k then (k, v) :: rest else (k0, v0) :: dictSet rest k v

/-- `table.setdefault(k, v)`: insert `(k, v)` only when `k` is absent. -/
def dictSetdefault (t : List (Char × Nat)) (k : Char) (v : Nat) : List (Char × Nat) :=
  match List.lookup k t with
  | some _ => t
  | none => t ++ [(k, v)]

/-- `build_shift_table(pattern)`: for each `i` in `0..m-2` set
`table[pattern[i]] = m - i - 1` (last write wins), then default the last
character to `m`.  Callers guarantee a non-empty pattern. -/
def build_shift_table (pattern : List Char) : List (Char × Nat) :=
  let pattern_length := pattern.length
  let table := (List.range (pattern_length - 1)).foldl
    (fun t i => dictSet t (pattern.getD i dChar) (pattern_length - i - 1)) []
  dictSetdefault table (pattern.getLastD dChar) pattern_length

/-- The shift applied to the alignment cursor after a mismatch on text
character `c`: `i + table[c]` when `c` is a key, else `i + m`. -/
def bmShiftStep (table : List (Char × Nat)) (pattern_length : Nat) (i : Int) (c : Char) : Int :=
  match List.lookup c table with
  | some s => i + (s : Int)
  | none => i + (pattern_length : Int)

/-- The inner right-to-left comparison loop of `boyer_moore_search`:
`while j >= 0 and text[k] == pattern[j]: j -= 1; k -= 1`.  Returns the
final `(j, k)`. -/
def bmInner (text pattern : List Char) : Nat → Int → Int → Option (Int × Int)
  | 0, _, _ => none
  | fuel+1, j, k =>
    if 0 ≤ j then
      match pyGet? text k, pyGet? pattern j with
      | some tc, some pc =>
        if tc = pc then bmInner text pattern fuel (j - 1) (k - 1) else some (j, k)
      | _, _ => none
    else some (j, k)

/-- The outer `while i < text_length` alignment loop of
`boyer_moore_search`. -/
def bmOuter (text pattern : List Char) (table : List (Char × Nat)) :
    Nat → Int → Option Int
  | 0, _ => none
  | fuel+1, i =>
    if i < (text.length : Int) then
      match bmInner text pattern (pattern.length + 2) ((pattern.length : Int) - 1) i with
      | none => none
      | some (j, k) =>
        if j = -1 then some (k + 1)
        else
          match pyGet? text k with
          | none => none
          | some c => bmOuter text pattern table fuel (bmShiftStep table pattern.length i c)
    else some (-1)

/-- `boyer_moore_search(text, pattern)` from task_3.py. -/
def boyer_moore_search (text pattern : List Char) : Option Int :=
  if text.length < pattern.length then some (-1)
  else if pattern = [] then some 0
  else bmOuter text pattern (build_shift_table pattern) (text.length + 2)
    ((pattern.length : Int) - 1)

/-- The `while i < len(pattern)` loop of `compute_lps`.  State: the
table built so far, the running prefix length, and the cursor `i`. -/
def lpsLoop (pattern : List Char) : Nat → List Nat → Nat → Nat → Option (List Nat)
  | 0, _, _, _ => none
  | fuel+1, lps, length, i =>
    if i < pattern.length then
      match pattern.get? i, pattern.get? length with
      | some pi, some pl =>
        if pi = pl then lpsLoop pattern fuel (lps.set i (length + 1)) (length + 1) (i + 1)
        else if length ≠ 0 then
          match lps.get? (length - 1) with
          | some l => lpsLoop pattern fuel lps l i
          | none => none
        else lpsLoop pattern fuel (lps.set i 0) 0 (i + 1)
      | _, _ => none
    else some lps

/-- `compute_lps(pattern)` from task_3.py: the KMP failure table. -/
def compute_lps (pattern : List Char) : Option (List Nat) :=
  lpsLoop pattern (2 * pattern.length + 1) (List.replicate pattern.length 0) 0 1

/-- The `while i < n` loop of `kmp_search`.  One iteration first tries to
match `pattern[j]` against `text[i]`, then returns on `j == m`, and
otherwise applies the failure-table fallback exactly as in the source. -/
def kmpLoop (text pattern : List Char) (lps : List Nat) (n m : Nat) :
    Nat → Nat → Nat → Option Int
  | 0, _, _ => none
  | fuel+1, i, j =>
    if i < n then
      match pattern.get? j, text.get? i with
      | some pj, some ti =>
        let ij := if pj = ti then (i + 1, j + 1) else (i, j)
        if ij.2 = m then some ((ij.1 : Int) - (ij.2 : Int))
        else if ij.1 < n then
          match pattern.get? ij.2, text.get? ij.1 with
          | some pj2, some ti2 =>
            if pj2 ≠ ti2 then
              if ij.2 ≠ 0 then
                match lps.get? (ij.2 - 1) with
                | some l => kmpLoop text pattern lps n m fuel ij.1 l
                | none => none
              else kmpLoop text pattern lps n m fuel (ij.1 + 1) ij.2
            else kmpLoop text pattern lps n m fuel ij.1 ij.2
          | _, _ => none
        else kmpLoop text pattern lps n m fuel ij.1 ij.2
      | _, _ => none
    else some (-1)

/-- `kmp_search(text, pattern)` from task_3.py. -/
def kmp_search (text pattern : List Char) : Option Int :=
  if pattern = [] then some 0
  else
    let n := text.length
    let m := pattern.length
    if n < m then some (-1)
    else
      match compute_lps pattern with
      | none => none
      | some lps => kmpLoop text pattern lps n m (2 * n + 1) 0 0

/-- The hash-initialisation loop of `rabin_karp_search`: one pass over
`range(m)` updating the pattern hash and the first-window text hash. -/
def rkInitHashes (text pattern : List Char) (q d : Int) :
    Nat → Nat → Int × Int → Option (Int × Int)
  | _, 0, hashes => some hashes
  | i, steps+1, (ph, th) =>
    match pattern.get? i, text.get? i with
    | some pc, some tc =>
      rkInitHashes text pattern q d (i + 1) steps
        ((d * ph + ord pc) % q, (d * th + ord tc) % q)
    | _, _ => none

/-- The character-by-character verification loop of `rabin_karp_search`,
run when the window hash matches the pattern hash. -/
def rkVerify (text pattern : List Char) (i : Nat) : Nat → Nat → Option Bool
  | _, 0 => some true
  | j, steps+1 =>
    match text.get? (i + j), pattern.get? j with
    | some tc, some pc =>
      if tc ≠ pc then some false else rkVerify text pattern i (j + 1) steps
    | _, _ => none

/-- The rolling-hash update of `rabin_karp_search`:
`(d*(text_hash - ord(text[i])*h) + ord(text[i+m])) % q`, followed by the
source's (dead, since `%` is non-negative here) normalisation branch. -/
def rkRoll (q d h th : Int) (a b : Char) : Int :=
  let next := (d * (th - ord a * h) + ord b) % q
  if next < 0 then next + q else next

/-- The `for i in range(n - m + 1)` sliding loop of `rabin_karp_search`.
`rem` counts the remaining window positions. -/
def rkLoop (text pattern : List Char) (q d h : Int) (n m : Nat) (pattern_hash : Int) :
    Nat → Nat → Int → Option Int
  | _, 0, _ => some (-1)
  | i, rem+1, text_hash =>
    let check : Option (Option Int) :=
      if pattern_hash = text_hash then
        match rkVerify text pattern i 0 m with
        | none => none
        | some true => some (some (i : Int))
        | some false => some none
      else some none
    match check with
    | none => none
    | some (some r) => some r
    | some none =>
      if i < n - m then
        match text.get? i, text.get? (i + m) with
        | some a, some b =>
          rkLoop text pattern q d h n m pattern_hash (i + 1) rem (rkRoll q d h text_hash a b)
        | _, _ => none
      else rkLoop text pattern q d h n m pattern_hash (i + 1) rem text_hash

/-- `rabin_karp_search(text, pattern)` from task_3.py, with `q = 101`
and `d = 256`. -/
def rabin_karp_search (text pattern : List Char) : Option Int :=
  if pattern = [] then some 0
  else
    let q : Int := 101
    let d : Int := 256
    let n := text.length
    let m := pattern.length
    if n < m then some (-1)
    else
      let h := (d ^ (m - 1)) % q
      match rkInitHashes text pattern q d 0 m (0, 0) with
      | none => none
      | some (pattern_hash, text_hash) =>
        rkLoop text pattern q d h n m pattern_hash 0 (n - m + 1) text_hash

/-! ## Specification-side notions -/

/-- The lowest index `i` with `text[i : i + len(pattern)] == pattern`,
or `none` when the pattern does not occur.  This is the specification's
notion of the first occurrence. -/
def first_occurrence (text pattern : List Char) : Option Nat :=
  (List.range (text.length + 1)).find?
    (fun i => (text.drop i).take pattern.length == pattern)

/-- The shift table after processing pattern positions `0 .. k-1`. -/
def tableUpTo (pattern : List Char) (k : Nat) : List (Char × Nat) :=
  (List.range k).foldl
    (fun t i => dictSet t (pattern.getD i dChar) (pattern.length - i - 1)) []

/-- `Border p t k`: the length-`k` prefix of the length-`t+1` prefix of
`p` is also a proper suffix of it (`k ≤ t` makes it proper).  This is
the prefix/suffix equation of the specification's LPS table. -/
def Border (p : List Char) (t k : Nat) : Prop :=
  k ≤ t ∧ (p.take (t + 1)).take k = (p.take (t + 1)).drop (t + 1 - k)

instance (p : List Char) (t k : Nat) : Decidable (Border p t k) :=
  inferInstanceAs (Decidable (_ ∧ _))

/-- Length of the longest proper prefix of `p[0..t]` that is also a
suffix of it. -/
def lpsSpec (p : List Char) (t : Nat) : Nat := Nat.findGreatest (Border p t) t

/-- The specification's polynomial window hash (Horner's method, base
256, modulo 101) — textually the same update the code's initialisation
loop applies. -/
def polyHash (s : List Char) : Int :=
  s.foldl (fun acc c => (256 * acc + ord c) % 101) 0

/-- `polyHash` without the modulus, used to reason about the rolling
identity. -/
def rawHash (s : List Char) : Int :=
  s.foldl (fun acc c => 256 * acc + ord c) 0

/-- The sorted array of the spec's binary-search scenario. -/
def testArr : List ℚ := [0.1, 1.2, 2.3, 3.4, 4.5, 5.6, 6.7, 7.8, 8.9, 9.0]


/-! ## C1: the three matchers do not agree

`boyer_moore_search` applies the bad-character shift to the alignment
cursor `i` (the text position aligned with the last pattern character)
instead of to the mismatch position `k`, so it can slide past a genuine
occurrence.  On text `cbaba` and pattern `aba` it returns `-1` although
the pattern occurs at index 2, where both other matchers find it. -/

/-- C1: the claim that all three matchers return the first-occurrence
index fails on the code: on text `cbaba`, pattern `aba`, the first
occurrence is at index 2 and `kmp_search` and `rabin_karp_search`
return 2, but `boyer_moore_search` returns the not-found sentinel. -/
theorem boyer_moore_misses_first_occurrence :
    boyer_moore_search ['c','b','a','b','a'] ['a','b','a'] = some (-1) ∧
    kmp_search ['c','b','a','b','a'] ['a','b','a'] = some 2 ∧
    rabin_karp_search ['c','b','a','b','a'] ['a','b','a'] = some 2 ∧
    first_occurrence ['c','b','a','b','a'] ['a','b','a'] = some 2 := by decide

/-! ## C7: empty pattern -/

/-- C7: for every text (in particular for `""` and `"hello"`), all three
matchers return 0 on the empty pattern. -/
theorem matchers_empty_pattern :
    (∀ text : List Char,
      boyer_moore_search text [] = some 0 ∧ kmp_search text [] = some 0 ∧
        rabin_karp_search text [] = some 0) ∧
    (boyer_moore_search [] [] = some 0 ∧ kmp_search [] [] = some 0 ∧
      rabin_karp_search [] [] = some 0) ∧
    (boyer_moore_search ['h','e','l','l','o'] [] = some 0 ∧
      kmp_search ['h','e','l','l','o'] [] = some 0 ∧
      rabin_karp_search ['h','e','l','l','o'] [] = some 0) := by
  refine ⟨fun text => ⟨?_, ?_, ?_⟩, by decide, by decide⟩ <;>
    simp [boyer_moore_search, kmp_search, rabin_karp_search]

/-! ## C8: pattern longer than text -/

/-- C8: whenever the pattern is longer than the text, each matcher
short-circuits to the not-found sentinel `-1` (no error). -/
theorem matchers_pattern_longer_than_text (text pattern : List Char)
    (h : text.length < pattern.length) :
    boyer_moore_search text pattern = some (-1) ∧
    kmp_search text pattern = some (-1) ∧
    rabin_karp_search text pattern = some (-1) := by
  have hne : pattern ≠ [] := by
    intro e
    rw [e] at h
    exact Nat.not_lt_zero _ h
  refine ⟨?_, ?_, ?_⟩ <;> simp [boyer_moore_search, kmp_search, rabin_karp_search, h, hne]

/-- Witness for C8 at text `short`, pattern `shortlonger`. -/
theorem matchers_pattern_longer_than_text_witness :
    boyer_moore_search ['s','h','o','r','t']
        ['s','h','o','r','t','l','o','n','g','e','r'] = some (-1) ∧
    kmp_search ['s','h','o','r','t']
        ['s','h','o','r','t','l','o','n','g','e','r'] = some (-1) ∧
    rabin_karp_search ['s','h','o','r','t']
        ['s','h','o','r','t','l','o','n','g','e','r'] = some (-1) :=
  matchers_pattern_longer_than_text _ _ (by decide)

/-! ## Shift-table lemmas (C5, C6) -/

lemma char_beq_true {c k : Char} (h : c = k) : (c == k) = true := beq_iff_eq.2 h

lemma char_beq_false {c k : Char} (h : ¬c = k) : (c == k) = false :=
  beq_eq_false_iff_ne.2 h

lemma lookup_dictSet (t : List (Char × Nat)) (k : Char) (v : Nat) (c : Char) :
    List.lookup c (dictSet t k v) = if c = k then some v else List.lookup c t := by
  induction t with
  | nil =>
    by_cases h : c = k <;>
      simp [dictSet, List.lookup, h, char_beq_true, char_beq_false]
  | cons hd tl ih =>
    obtain ⟨k0, v0⟩ := hd
    by_cases h0 : k0 = k
    · subst h0
      by_cases h : c = k0 <;>
        simp [dictSet, List.lookup, h, char_beq_true, char_beq_false]
    · by_cases h : c = k0
      · have hck : ¬c = k := fun e => h0 (h ▸ e)
        simp [dictSet, List.lookup, h0, hck, char_beq_true h]
      · simp [dictSet, List.lookup, h0, char_beq_false h, ih]

lemma lookup_append_single (t : List (Char × Nat)) (k : Char) (v : Nat) (c : Char) :
    List.lookup c (t ++ [(k, v)]) =
      match List.lookup c t with
      | some w => some w
      | none => if c = k then some v else none := by
  induction t with
  | nil =>
    by_cases h : c = k <;> simp [List.lookup, h, char_beq_true, char_beq_false]
  | cons hd tl ih =>
    obtain ⟨k0, v0⟩ := hd
    by_cases h : c = k0
    · simp [List.lookup, char_beq_true h]
    · simp [List.lookup, char_beq_false h, ih]

lemma build_shift_table_eq (pattern : List Char) :
    build_shift_table pattern =
      dictSetdefault (tableUpTo pattern (pattern.length - 1))
        (pattern.getLastD dChar) pattern.length := rfl

lemma lookup_tableUpTo (p : List Char) (k : Nat) (c : Char) (v : Nat) :
    List.lookup c (tableUpTo p k) = some v ↔
      ∃ r, r < k ∧ p.getD r dChar = c ∧
        (∀ s, r < s → s < k → p.getD s dChar ≠ c) ∧ v = p.length - r - 1 := by
  induction k generalizing v with
  | zero => simp [tableUpTo, List.lookup]
  | succ k ih =>
    have hstep : tableUpTo p (k + 1) =
        dictSet (tableUpTo p k) (p.getD k dChar) (p.length - k - 1) := by
      simp [tableUpTo, List.range_succ]
    rw [hstep, lookup_dictSet]
    by_cases hc : c = p.getD k dChar
    · rw [if_pos hc]
      simp only [Option.some.injEq]
      constructor
      · intro h
        exact ⟨k, by omega, hc.symm, fun s hs hsk => absurd hsk (by omega), h.symm⟩
      · rintro ⟨r, hr, hrc, hmax, rfl⟩
        rcases Nat.lt_or_ge r k with hlt | hge
        · exact absurd hc.symm (hmax k hlt (by omega))
        · have : r = k := by omega
          subst this
          rfl
    · rw [if_neg hc, ih]
      constructor
      · rintro ⟨r, hr, hrc, hmax, rfl⟩
        refine ⟨r, by omega, hrc, fun s hs hsk => ?_, rfl⟩
        rcases Nat.lt_or_ge s k with hlt | hge
        · exact hmax s hs hlt
        · have : s = k := by omega
          subst this
          exact fun e => hc e.symm
      · rintro ⟨r, hr, hrc, hmax, rfl⟩
        have hrk : r ≠ k := by
          rintro rfl
          exact hc hrc.symm
        exact ⟨r, by omega, hrc, fun s hs hsk => hmax s hs (by omega), rfl⟩

/-- Helper: a rightmost occurrence below a bound exists whenever some
occurrence does. -/
lemma exists_rightmost (p : List Char) (k : Nat) (c : Char)
    (h : ∃ s, s < k ∧ p.getD s dChar = c) :
    ∃ r, r < k ∧ p.getD r dChar = c ∧ ∀ s, r < s → s < k → p.getD s dChar ≠ c := by
  classical
  obtain ⟨s, hs, hsc⟩ := h
  set P : Nat → Prop := fun t => t < k ∧ p.getD t dChar = c with hP
  have hspec : P (Nat.findGreatest P k) :=
    Nat.findGreatest_spec (m := s) (by omega) ⟨hs, hsc⟩
  refine ⟨Nat.findGreatest P k, hspec.1, hspec.2, fun t ht htk hne => ?_⟩
  have : t ≤ Nat.findGreatest P k := Nat.le_findGreatest (by omega) ⟨htk, hne⟩
  omega

lemma lookup_tableUpTo_none (p : List Char) (k : Nat) (c : Char) :
    List.lookup c (tableUpTo p k) = none ↔ ∀ s, s < k → p.getD s dChar ≠ c := by
  constructor
  · intro hnone s hs hsc
    obtain ⟨r, hr, hrc, hmax⟩ := exists_rightmost p k c ⟨s, hs, hsc⟩
    have : List.lookup c (tableUpTo p k) = some (p.length - r - 1) :=
      (lookup_tableUpTo p k c _).2 ⟨r, hr, hrc, hmax, rfl⟩
    rw [hnone] at this
    exact Option.noConfusion this
  · intro hall
    cases hv : List.lookup c (tableUpTo p k) with
    | none => rfl
    | some v =>
      obtain ⟨r, hr, hrc, -, -⟩ := (lookup_tableUpTo p k c v).1 hv
      exact absurd hrc (hall r hr)

/-- Full characterisation of `build_shift_table` lookups for a non-empty
pattern: characters with an occurrence among the first `m-1` positions
map to `m - 1 - r` for `r` their rightmost such occurrence; the last
character, when absent from those positions, maps to `m`; nothing else
is in the table. -/
lemma lookup_build_shift_table (p : List Char) (c : Char) (v : Nat) :
    List.lookup c (build_shift_table p) = some v ↔
      (∃ r, r < p.length - 1 ∧ p.getD r dChar = c ∧
        (∀ s, r < s → s < p.length - 1 → p.getD s dChar ≠ c) ∧ v = p.length - r - 1)
      ∨ ((∀ s, s < p.length - 1 → p.getD s dChar ≠ c) ∧ c = p.getLastD dChar ∧
          v = p.length) := by
  rw [build_shift_table_eq]
  unfold dictSetdefault
  cases hlast : List.lookup (p.getLastD dChar) (tableUpTo p (p.length - 1)) with
  | some w =>
    rw [lookup_tableUpTo]
    constructor
    · exact Or.inl
    · rintro (h | ⟨hall, hc, rfl⟩)
      · exact h
      · exfalso
        have hnone := (lookup_tableUpTo_none p (p.length - 1) (p.getLastD dChar)).2
          (hc ▸ hall)
        rw [hnone] at hlast
        exact Option.noConfusion hlast
  | none =>
    rw [lookup_append_single]
    cases ht : List.lookup c (tableUpTo p (p.length - 1)) with
    | some w =>
      rw [lookup_tableUpTo] at ht
      simp only [Option.some.injEq]
      constructor
      · rintro rfl
        exact Or.inl ht
      · rintro (⟨r, hr, hrc, hmax, rfl⟩ | ⟨hall, hc, rfl⟩)
        · obtain ⟨r', hr', hrc', hmax', rfl⟩ := ht
          have : r = r' := by
            rcases Nat.lt_trichotomy r r' with h | h | h
            · exact absurd hrc' (hmax r' h hr')
            · exact h
            · exact absurd hrc (hmax' r h hr)
          omega
        · obtain ⟨r', hr', hrc', -, -⟩ := ht
          exact absurd hrc' (hall r' hr')
    | none =>
      rw [lookup_tableUpTo_none] at ht
      by_cases hc : c = p.getLastD dChar
      · rw [if_pos hc]
        simp only [Option.some.injEq]
        constructor
        · intro h
          exact Or.inr ⟨ht, hc, h.symm⟩
        · rintro (⟨r, hr, hrc, -, -⟩ | ⟨-, -, rfl⟩)
          · exact absurd hrc (ht r hr)
          · rfl
      · rw [if_neg hc]
        constructor
        · rintro h
          exact Option.noConfusion h
        · rintro (⟨r, hr, hrc, -, -⟩ | ⟨-, hc2, -⟩)
          · exact absurd hrc (ht r hr)
          · exact absurd hc2 hc

lemma lookup_build_shift_table_pos (p : List Char) (hp : p ≠ []) (c : Char) (v : Nat)
    (h : List.lookup c (build_shift_table p) = some v) : 1 ≤ v := by
  have hm : 1 ≤ p.length := List.length_pos.2 hp
  rcases (lookup_build_shift_table p c v).1 h with ⟨r, hr, -, -, rfl⟩ | ⟨-, -, rfl⟩ <;> omega

lemma lookup_build_shift_table_absent (p : List Char) (hp : p ≠ []) (c : Char)
    (hc : c ∉ p) : List.lookup c (build_shift_table p) = none := by
  cases hv : List.lookup c (build_shift_table p) with
  | none => rfl
  | some v =>
    exfalso
    rcases (lookup_build_shift_table p c v).1 hv with ⟨r, hr, hrc, -, -⟩ | ⟨-, hlast, -⟩
    · have hmem : p.getD r dChar ∈ p := by
        rw [List.getD_eq_getElem p dChar (by omega)]
        exact List.getElem_mem _
      exact hc (hrc ▸ hmem)
    · rw [List.getLastD_eq_getLast?, List.getLast?_eq_getLast p hp] at hlast
      simp only [Option.getD_some] at hlast
      exact hc (hlast ▸ List.getLast_mem hp)

/-! ## C5: shift-table contents

The claim that every character of the pattern maps to its rightmost
occurrence's distance from the pattern's end is refuted by pattern
`aba`: the rightmost occurrence of `a` is the last position (distance
0 from the end), but the table maps `a` to 2 (its rightmost occurrence
among the first `m-1` positions). -/

/-- C5 counterexample: on pattern `aba`, the table does not map each
pattern character to its rightmost occurrence's distance from the end
(`List.reverse.indexOf` computes exactly that distance). -/
theorem build_shift_table_rightmost_claim_false :
    ¬ (∀ c ∈ ['a','b','a'], List.lookup c (build_shift_table ['a','b','a']) =
        some (['a','b','a'].reverse.indexOf c)) := by decide

/-- C5 (amended): for a non-empty pattern, the table maps a character
occurring among the first `m-1` positions to `m - 1 - r` with `r` its
rightmost occurrence among those positions (a positive shift); the last
character, when absent from those positions, maps to `m`; characters
absent from the pattern are not in the table and receive the default
shift `m` during the search. -/
theorem build_shift_table_correct (p : List Char) (hp : p ≠ []) (c : Char) :
    (∀ v, List.lookup c (build_shift_table p) = some v ↔
      (∃ r, r < p.length - 1 ∧ p.getD r dChar = c ∧
        (∀ s, r < s → s < p.length - 1 → p.getD s dChar ≠ c) ∧ v = p.length - r - 1)
      ∨ ((∀ s, s < p.length - 1 → p.getD s dChar ≠ c) ∧ c = p.getLastD dChar ∧
          v = p.length)) ∧
    (∀ v, List.lookup c (build_shift_table p) = some v → 1 ≤ v) ∧
    (c ∉ p → List.lookup c (build_shift_table p) = none ∧
      ∀ i : Int, bmShiftStep (build_shift_table p) p.length i c = i + p.length) := by
  refine ⟨fun v => lookup_build_shift_table p c v,
    fun v => lookup_build_shift_table_pos p hp c v, fun hc => ?_⟩
  have hnone := lookup_build_shift_table_absent p hp c hc
  exact ⟨hnone, fun i => by simp [bmShiftStep, hnone]⟩

/-- Witness for C5 at pattern `aba` and the absent character `c`. -/
theorem build_shift_table_correct_witness :
    List.lookup 'c' (build_shift_table ['a','b','a']) = none ∧
    bmShiftStep (build_shift_table ['a','b','a']) 3 2 'c' = 5 := by
  have h := (build_shift_table_correct ['a','b','a'] (by decide) 'c').2.2 (by decide)
  exact ⟨h.1, by have h2 := h.2 2; simpa using h2⟩

/-! ## C6: positive shifts and the absent-character advance -/

/-- C6: every shift stored in the table is at least 1, and during
`boyer_moore_search` a mismatch on a text character absent from the
pattern advances the alignment cursor by exactly the pattern length. -/
theorem shift_table_positive_and_absent_advance (p : List Char) (hp : p ≠ []) :
    (∀ c v, List.lookup c (build_shift_table p) = some v → 1 ≤ v) ∧
    (∀ (i : Int) (c : Char), c ∉ p →
      bmShiftStep (build_shift_table p) p.length i c = i + p.length) := by
  refine ⟨fun c v => lookup_build_shift_table_pos p hp c v, fun i c hc => ?_⟩
  simp [bmShiftStep, lookup_build_shift_table_absent p hp c hc]

/-- Witness for C6 at pattern `aba`. -/
theorem shift_table_positive_and_absent_advance_witness :
    (List.lookup 'a' (build_shift_table ['a','b','a']) = some 2 → 1 ≤ 2) ∧
    bmShiftStep (build_shift_table ['a','b','a']) 3 2 'c' = 5 := by
  have h := shift_table_positive_and_absent_advance ['a','b','a'] (by decide)
  exact ⟨fun hl => h.1 'a' 2 hl, by have h2 := h.2 2 'c' (by decide); simpa using h2⟩

/-! ## C4: Rabin-Karp never returns a false positive -/

lemma rkVerify_sound (text pattern : List Char) (i : Nat) :
    ∀ steps j, rkVerify text pattern i j steps = some true →
      (text.drop (i + j)).take steps = (pattern.drop j).take steps := by
  intro steps
  induction steps with
  | zero => intro j _; rfl
  | succ steps ih =>
    intro j hv
    rw [rkVerify] at hv
    cases htc : text.get? (i + j) with
    | none => rw [htc] at hv; exact Option.noConfusion hv
    | some tc =>
      cases hpc : pattern.get? j with
      | none => rw [htc, hpc] at hv; exact Option.noConfusion hv
      | some pc =>
        rw [htc, hpc] at hv
        dsimp only at hv
        by_cases hne : tc ≠ pc
        · rw [if_pos hne] at hv
          exact Bool.noConfusion (Option.some.inj hv)
        · rw [if_neg hne] at hv
          push_neg at hne
          have hrec := ih (j + 1) hv
          have htlt : i + j < text.length := by
            by_contra hge
            rw [List.get?_eq_getElem?, List.getElem?_eq_none (by omega)] at htc
            exact Option.noConfusion htc
          have hplt : j < pattern.length := by
            by_contra hge
            rw [List.get?_eq_getElem?, List.getElem?_eq_none (by omega)] at hpc
            exact Option.noConfusion hpc
          have htval : text[i + j] = tc := by
            rw [List.get?_eq_getElem?, List.getElem?_eq_getElem htlt] at htc
            exact Option.some.inj htc
          have hpval : pattern[j] = pc := by
            rw [List.get?_eq_getElem?, List.getElem?_eq_getElem hplt] at hpc
            exact Option.some.inj hpc
          rw [List.drop_eq_getElem_cons htlt, List.drop_eq_getElem_cons hplt]
          simp only [List.take_succ_cons]
          rw [htval, hpval, hne]
          have : i + j + 1 = i + (j + 1) := by omega
          rw [this]
          exact congrArg (List.cons pc) hrec

lemma rkLoop_sound (text pattern : List Char) (q d h : Int) (n m : Nat) (ph : Int)
    (hm : m = pattern.length) :
    ∀ rem i th r, rkLoop text pattern q d h n m ph i rem th = some r → 0 ≤ r →
      (text.drop r.toNat).take m = pattern := by
  intro rem
  induction rem with
  | zero =>
    intro i th r hr hpos
    rw [rkLoop] at hr
    have : r = -1 := (Option.some.inj hr).symm
    omega
  | succ rem ih =>
    intro i th r hr hpos
    rw [rkLoop] at hr
    by_cases hph : ph = th
    · rw [if_pos hph] at hr
      cases hv : rkVerify text pattern i 0 m with
      | none => rw [hv] at hr; exact Option.noConfusion hr
      | some b =>
        cases b with
        | true =>
          rw [hv] at hr
          have hri : r = (i : Int) := (Option.some.inj hr).symm
          subst hri
          rw [Int.toNat_natCast]
          have := rkVerify_sound text pattern i m 0 hv
          rw [Nat.add_zero] at this
          rw [this, List.drop_zero, hm, List.take_length]
        | false =>
          rw [hv] at hr
          by_cases hlt : i < n - m
          · rw [if_pos hlt] at hr
            cases ha : text.get? i with
            | none => rw [ha] at hr; exact Option.noConfusion hr
            | some a =>
              cases hb : text.get? (i + m) with
              | none => rw [ha, hb] at hr; exact Option.noConfusion hr
              | some b2 =>
                rw [ha, hb] at hr
                exact ih _ _ _ hr hpos
          · rw [if_neg hlt] at hr
            exact ih _ _ _ hr hpos
    · rw [if_neg hph] at hr
      by_cases hlt : i < n - m
      · rw [if_pos hlt] at hr
        cases ha : text.get? i with
        | none => rw [ha] at hr; exact Option.noConfusion hr
        | some a =>
          cases hb : text.get? (i + m) with
          | none => rw [ha, hb] at hr; exact Option.noConfusion hr
          | some b2 =>
            rw [ha, hb] at hr
            exact ih _ _ _ hr hpos
      · rw [if_neg hlt] at hr
        exact ih _ _ _ hr hpos

/-- C4: whenever `rabin_karp_search` returns a non-negative index `i`,
the text substring of the pattern's length starting at `i` equals the
pattern exactly: a hash coincidence is never reported without
character-by-character verification. -/
theorem rabin_karp_no_false_positive (text pattern : List Char) (i : Int)
    (h : rabin_karp_search text pattern = some i) (hi : 0 ≤ i) :
    (text.drop i.toNat).take pattern.length = pattern := by
  rw [rabin_karp_search] at h
  by_cases hemp : pattern = []
  · rw [if_pos hemp] at h
    have : i = 0 := (Option.some.inj h).symm
    subst this
    subst hemp
    rfl
  · rw [if_neg hemp] at h
    simp only at h
    by_cases hlen : text.length < pattern.length
    · rw [if_pos hlen] at h
      have : i = -1 := (Option.some.inj h).symm
      omega
    · rw [if_neg hlen] at h
      cases hinit : rkInitHashes text pattern 101 256 0 pattern.length (0, 0) with
      | none => rw [hinit] at h; exact Option.noConfusion h
      | some hashes =>
        obtain ⟨ph, th⟩ := hashes
        rw [hinit] at h
        exact rkLoop_sound text pattern 101 256 _ _ _ ph rfl _ _ _ _ h hi

/-- Witness for C4: on text `abxabcabcaby` and pattern `abcaby`,
`rabin_karp_search` returns 6 and the substring at 6 is the pattern. -/
theorem rabin_karp_no_false_positive_witness :
    (['a','b','x','a','b','c','a','b','c','a','b','y'].drop (6 : Int).toNat).take
        ['a','b','c','a','b','y'].length = ['a','b','c','a','b','y'] :=
  rabin_karp_no_false_positive _ _ 6 (by decide) (by decide)

/-! ## Borders and the LPS specification (C3)

`Border p t k` says that the length-`k` prefix of the length-`t+1`
prefix of `p` is also a proper suffix of it (`k ≤ t` makes it proper).
`lpsSpec p t` is the longest such `k`: the value `compute_lps` must
store at index `t`. -/

lemma border_zero (p : List Char) (t : Nat) : Border p t 0 :=
  ⟨Nat.zero_le t, by
    rw [List.take_zero, List.drop_eq_nil_of_le]
    rw [List.length_take]
    omega⟩

lemma border_take_eq (p : List Char) {t k : Nat} (hk : k ≤ t + 1) :
    (p.take (t + 1)).take k = p.take k := by
  rw [List.take_take, min_eq_left hk]

/-- `Border` with the outer prefix on the left-hand side flattened. -/
lemma border_iff (p : List Char) (t k : Nat) :
    Border p t k ↔ k ≤ t ∧ p.take k = (p.take (t + 1)).drop (t + 1 - k) := by
  unfold Border
  constructor
  · rintro ⟨h1, h2⟩
    rw [border_take_eq p (by omega)] at h2
    exact ⟨h1, h2⟩
  · rintro ⟨h1, h2⟩
    rw [border_take_eq p (by omega)]
    exact ⟨h1, h2⟩

/-- A border of a border is a border. -/
lemma border_trans (p : List Char) {t l k : Nat} (hl : 1 ≤ l)
    (h1 : Border p t l) (h2 : Border p (l - 1) k) : Border p t k := by
  rw [border_iff] at h1 h2 ⊢
  obtain ⟨hlt, he1⟩ := h1
  obtain ⟨hkl, he2⟩ := h2
  have hll : l - 1 + 1 = l := by omega
  rw [hll] at he2
  refine ⟨by omega, ?_⟩
  rw [he2, he1, List.drop_drop]
  congr 1
  omega

/-- A shorter border of `p[0..t]` is a border of the prefix cut at a
longer border's length. -/
lemma border_restrict (p : List Char) {t l k : Nat} (hkl : k < l)
    (h1 : Border p t k) (h2 : Border p t l) : Border p (l - 1) k := by
  rw [border_iff] at h1 h2 ⊢
  obtain ⟨hkt, he1⟩ := h1
  obtain ⟨hlt, he2⟩ := h2
  have hll : l - 1 + 1 = l := by omega
  rw [hll]
  refine ⟨by omega, ?_⟩
  rw [he2, List.drop_drop, he1]
  congr 1
  omega

/-- Extending a border by one matching character. -/
lemma border_succ_iff (p : List Char) {t k : Nat} (ht : t + 1 < p.length)
    (hk : k ≤ t) :
    Border p (t + 1) (k + 1) ↔
      Border p t k ∧ p.getD k dChar = p.getD (t + 1) dChar := by
  have hsplit : p.take (t + 2) = p.take (t + 1) ++ [p.getD (t + 1) dChar] := by
    have := List.take_succ (l := p) (n := t + 1)
    rw [List.getElem?_eq_getElem ht] at this
    rw [List.getD_eq_getElem p dChar ht]
    simp only [Option.toList_some] at this
    exact this
  have htake : p.take (k + 1) = p.take k ++ [p.getD k dChar] := by
    have hklt : k < p.length := by omega
    have := List.take_succ (l := p) (n := k)
    rw [List.getElem?_eq_getElem hklt] at this
    rw [List.getD_eq_getElem p dChar hklt]
    simp only [Option.toList_some] at this
    exact this
  have hlen1 : t + 1 ≤ p.length := by omega
  have hlentake : (p.take (t + 1)).length = t + 1 := by
    rw [List.length_take]
    omega
  constructor
  · rintro ⟨hle, heq⟩
    have heq2 : p.take (k + 1) = (p.take (t + 2)).drop (t + 2 - (k + 1)) := by
      rw [← border_take_eq p (t := t + 1) (k := k + 1) (by omega)]
      exact heq
    rw [htake, hsplit] at heq2
    have harith : t + 2 - (k + 1) = t + 1 - k := by omega
    rw [harith, List.drop_append_of_le_length (by omega)] at heq2
    have hinj := List.append_inj' heq2 (by rfl)
    obtain ⟨hpre, hchar⟩ := hinj
    refine ⟨(border_iff p t k).2 ⟨hk, hpre⟩, ?_⟩
    exact List.head_eq_of_cons_eq hchar
  · rintro ⟨hb, hchar⟩
    obtain ⟨-, hpre⟩ := (border_iff p t k).1 hb
    refine ⟨by omega, ?_⟩
    rw [border_take_eq p (by omega), htake, hsplit]
    have harith : t + 2 - (k + 1) = t + 1 - k := by omega
    rw [harith, List.drop_append_of_le_length (by omega), ← hpre, hchar]

lemma lpsSpec_border (p : List Char) (t : Nat) : Border p t (lpsSpec p t) :=
  Nat.findGreatest_spec (Nat.zero_le t) (border_zero p t)

lemma lpsSpec_le (p : List Char) (t : Nat) : lpsSpec p t ≤ t :=
  Nat.findGreatest_le t

lemma le_lpsSpec (p : List Char) {t k : Nat} (h : Border p t k) : k ≤ lpsSpec p t :=
  Nat.le_findGreatest h.1 h

lemma lpsSpec_eq (p : List Char) {t v : Nat} (hb : Border p t v)
    (hmax : ∀ k, Border p t k → k ≤ v) : lpsSpec p t = v :=
  le_antisymm (hmax _ (lpsSpec_border p t)) (le_lpsSpec p hb)

lemma lpsSpec_zero (p : List Char) : lpsSpec p 0 = 0 := by
  have := lpsSpec_le p 0
  omega

/-! List `set`/`getD` helpers used by the `compute_lps` loop proof. -/

lemma getD_set_self (l : List Nat) (i v : Nat) (h : i < l.length) :
    (l.set i v).getD i 0 = v := by
  rw [List.getD_eq_getElem _ 0 (by rw [List.length_set]; omega), List.getElem_set]
  simp

lemma getD_set_ne (l : List Nat) (i t v : Nat) (h : i ≠ t) :
    (l.set i v).getD t 0 = l.getD t 0 := by
  by_cases ht : t < l.length
  · rw [List.getD_eq_getElem _ 0 (by rw [List.length_set]; omega),
      List.getD_eq_getElem _ 0 ht, List.getElem_set, if_neg h]
  · rw [List.getD_eq_getElem?_getD, List.getD_eq_getElem?_getD,
      List.getElem?_eq_none (l := l.set i v) (by rw [List.length_set]; omega),
      List.getElem?_eq_none (l := l) (by omega)]

/-- Main invariant proof for the `compute_lps` loop.  Entering an
iteration, all table entries below the cursor are correct, `length` is a
border of the prefix ending at `i-1`, and every longer border of that
prefix has already been tried and failed to extend with `pattern[i]`. -/
lemma lpsLoop_correct (p : List Char) :
    ∀ (fuel : Nat) (lps : List Nat) (length i : Nat),
      1 ≤ i →
      lps.length = p.length →
      (∀ t, t < i → t < p.length → lps.getD t 0 = lpsSpec p t) →
      Border p (i - 1) length →
      (∀ k, Border p (i - 1) k → length < k → p.getD k dChar ≠ p.getD i dChar) →
      2 * (p.length - i) + length + 1 ≤ fuel →
      ∃ out, lpsLoop p fuel lps length i = some out ∧
        out.length = p.length ∧ ∀ t, t < p.length → out.getD t 0 = lpsSpec p t := by
  intro fuel
  induction fuel with
  | zero =>
    intro lps length i h1 hlen hI2 hI3 hI4 hfuel
    omega
  | succ fuel ih =>
    intro lps length i h1 hlen hI2 hI3 hI4 hfuel
    rw [lpsLoop]
    by_cases hi : i < p.length
    · have hlenle : length ≤ i - 1 := hI3.1
      have hlt_len : length < p.length := by omega
      have hpi : p.get? i = some (p.getD i dChar) := by
        rw [List.get?_eq_getElem?, List.getElem?_eq_getElem hi,
          List.getD_eq_getElem p dChar hi]
      have hpl : p.get? length = some (p.getD length dChar) := by
        rw [List.get?_eq_getElem?, List.getElem?_eq_getElem hlt_len,
          List.getD_eq_getElem p dChar hlt_len]
      rw [if_pos hi, hpi, hpl]
      dsimp only
      have hi1 : i - 1 + 1 = i := by omega
      by_cases hc : p.getD i dChar = p.getD length dChar
      · -- characters match: record lps[i] = length + 1
        rw [if_pos hc]
        have hb : Border p i (length + 1) := by
          have := (border_succ_iff p (t := i - 1) (k := length) (by omega)
            (by omega)).2 ⟨hI3, by rw [hi1]; exact hc.symm⟩
          rwa [hi1] at this
        have hmax : ∀ k, Border p i k → k ≤ length + 1 := by
          intro k hk
          cases k with
          | zero => omega
          | succ k2 =>
            have hk2i : k2 + 1 ≤ i := hk.1
            have hk' : Border p (i - 1 + 1) (k2 + 1) := by rwa [hi1]
            have hdec := (border_succ_iff p (t := i - 1) (k := k2) (by omega)
              (by omega)).1 hk'
            obtain ⟨hbk, hchar⟩ := hdec
            rw [hi1] at hchar
            by_contra hgt
            exact hI4 k2 hbk (by omega) hchar
        have hspec_i : lpsSpec p i = length + 1 := lpsSpec_eq p hb hmax
        have hrec := ih (lps.set i (length + 1)) (length + 1) (i + 1)
          (by omega)
          (by rw [List.length_set]; exact hlen)
          (by
            intro t ht htlen
            by_cases hti : t = i
            · subst hti
              rw [getD_set_self lps t (length + 1) (by omega), hspec_i]
            · rw [getD_set_ne lps i t (length + 1) (fun e => hti e.symm)]
              exact hI2 t (by omega) htlen)
          (by
            have : i + 1 - 1 = i := by omega
            rw [this]
            exact hb)
          (by
            intro k hbk hlt
            have : i + 1 - 1 = i := by omega
            rw [this] at hbk
            exact absurd (hmax k hbk) (by omega))
          (by omega)
        obtain ⟨out, hout, houtlen, houtspec⟩ := hrec
        exact ⟨out, hout, houtlen, houtspec⟩
      · -- characters differ
        rw [if_neg hc]
        by_cases hlen0 : length ≠ 0
        · -- fall back along the border chain
          rw [if_pos hlen0]
          have hlenpos : 1 ≤ length := by omega
          have hll : length - 1 < lps.length := by omega
          have hget : lps.get? (length - 1) = some (lps.getD (length - 1) 0) := by
            rw [List.get?_eq_getElem?, List.getElem?_eq_getElem hll,
              List.getD_eq_getElem lps 0 hll]
          rw [hget]
          dsimp only
          have hval : lps.getD (length - 1) 0 = lpsSpec p (length - 1) :=
            hI2 (length - 1) (by omega) (by omega)
          rw [hval]
          have hI3' : Border p (i - 1) (lpsSpec p (length - 1)) :=
            border_trans p hlenpos hI3 (lpsSpec_border p (length - 1))
          have hI4' : ∀ k, Border p (i - 1) k → lpsSpec p (length - 1) < k →
              p.getD k dChar ≠ p.getD i dChar := by
            intro k hbk hlk
            rcases Nat.lt_trichotomy k length with hkl | hkl | hkl
            · exfalso
              have hres : Border p (length - 1) k := border_restrict p hkl hbk hI3
              have := le_lpsSpec p hres
              omega
            · subst hkl
              exact fun e => hc e.symm
            · exact hI4 k hbk hkl
          have hfall : lpsSpec p (length - 1) ≤ length - 1 := lpsSpec_le p (length - 1)
          exact ih lps (lpsSpec p (length - 1)) i h1 hlen hI2 hI3' hI4' (by omega)
        · -- length = 0: record lps[i] = 0
          rw [if_neg hlen0]
          push_neg at hlen0
          subst hlen0
          have hmax : ∀ k, Border p i k → k ≤ 0 := by
            intro k hk
            cases k with
            | zero => omega
            | succ k2 =>
              exfalso
              have hk2i : k2 + 1 ≤ i := hk.1
              have hk' : Border p (i - 1 + 1) (k2 + 1) := by rwa [hi1]
              have hdec := (border_succ_iff p (t := i - 1) (k := k2) (by omega)
                (by omega)).1 hk'
              obtain ⟨hbk, hchar⟩ := hdec
              rw [hi1] at hchar
              cases Nat.eq_zero_or_pos k2 with
              | inl h0 =>
                subst h0
                exact hc hchar.symm
              | inr hpos =>
                exact hI4 k2 hbk hpos hchar
          have hspec_i : lpsSpec p i = 0 := lpsSpec_eq p (border_zero p i) hmax
          have hrec := ih (lps.set i 0) 0 (i + 1)
            (by omega)
            (by rw [List.length_set]; exact hlen)
            (by
              intro t ht htlen
              by_cases hti : t = i
              · subst hti
                rw [getD_set_self lps t 0 (by omega), hspec_i]
              · rw [getD_set_ne lps i t 0 (fun e => hti e.symm)]
                exact hI2 t (by omega) htlen)
            (by
              have : i + 1 - 1 = i := by omega
              rw [this]
              exact border_zero p i)
            (by
              intro k hbk hlt
              have : i + 1 - 1 = i := by omega
              rw [this] at hbk
              exact absurd (hmax k hbk) (by omega))
            (by omega)
          obtain ⟨out, hout, houtlen, houtspec⟩ := hrec
          exact ⟨out, hout, houtlen, houtspec⟩
    · -- loop exit: every entry below p.length ≤ i is already correct
      rw [if_neg hi]
      exact ⟨lps, rfl, hlen, fun t ht => hI2 t (by omega) ht⟩

/-- `compute_lps` terminates on every pattern and computes exactly the
longest-proper-border lengths. -/
lemma compute_lps_spec (p : List Char) :
    ∃ lps, compute_lps p = some lps ∧ lps.length = p.length ∧
      ∀ t, t < p.length → lps.getD t 0 = lpsSpec p t := by
  rw [compute_lps]
  apply lpsLoop_correct p (2 * p.length + 1) (List.replicate p.length 0) 0 1
  · omega
  · simp
  · intro t ht htlen
    have ht0 : t = 0 := by omega
    subst ht0
    rw [List.getD_eq_getElem _ 0 (by simpa using htlen)]
    simp [lpsSpec_zero]
  · exact border_zero p 0
  · intro k hk hk0
    have := hk.1
    omega
  · omega

/-! ## C3: the LPS table is correct -/

/-- C3: `compute_lps` returns a table of the pattern's length in which
entry `t` is the length of the longest proper prefix of `pattern[0..t]`
that is also a suffix of it (`Border` states the prefix/suffix equation,
the quantified conjunct its maximality), with `lps[t] < t + 1` and
`lps[0] = 0`. -/
theorem compute_lps_correct (pattern : List Char) :
    ∃ lps, compute_lps pattern = some lps ∧
      lps.length = pattern.length ∧
      (∀ t, t < pattern.length →
        lps.getD t 0 < t + 1 ∧
        Border pattern t (lps.getD t 0) ∧
        (∀ k, Border pattern t k → k ≤ lps.getD t 0)) ∧
      (0 < pattern.length → lps.getD 0 0 = 0) := by
  obtain ⟨lps, h1, h2, h3⟩ := compute_lps_spec pattern
  refine ⟨lps, h1, h2, fun t ht => ?_, fun h0 => ?_⟩
  · rw [h3 t ht]
    exact ⟨by have := lpsSpec_le pattern t; omega, lpsSpec_border pattern t,
      fun k hk => le_lpsSpec pattern hk⟩
  · rw [h3 0 h0, lpsSpec_zero]

/-- Witness for C3 at pattern `abab`: the computed table is
`[0, 0, 1, 2]`, and 2 really is the longest border length at index 3. -/
theorem compute_lps_correct_witness :
    compute_lps ['a','b','a','b'] = some [0, 0, 1, 2] ∧
    Border ['a','b','a','b'] 3 2 ∧
    (∀ k, Border ['a','b','a','b'] 3 k → k ≤ 2) := by
  have he : compute_lps ['a','b','a','b'] = some [0, 0, 1, 2] := by decide
  obtain ⟨lps, h1, -, h3, -⟩ := compute_lps_correct ['a','b','a','b']
  have hl : lps = [0, 0, 1, 2] := by
    have := h1.symm.trans he
    exact Option.some.inj this
  subst hl
  have h33 := h3 3 (by decide)
  exact ⟨he, h33.2.1, h33.2.2⟩

/-! ## C9: totality of the three matchers

Fuel exhaustion and out-of-range indexing are both modelled as `none`;
the lemmas below show every run returns `some`, i.e. every loop
terminates within the allotted fuel and every index stays in bounds. -/

lemma pyGet?_isSome {α : Type} (l : List α) (i : Int) (h0 : 0 ≤ i)
    (h1 : i < (l.length : Int)) : ∃ x, pyGet? l i = some x := by
  unfold pyGet?
  rw [if_pos ⟨h0, h1⟩]
  have hlt : i.toNat < l.length := by omega
  exact ⟨_, by rw [List.get?_eq_getElem?, List.getElem?_eq_getElem hlt]⟩

lemma get?_isSome {α : Type} (l : List α) (i : Nat) (h : i < l.length) :
    ∃ x, l.get? i = some x :=
  ⟨_, by rw [List.get?_eq_getElem?, List.getElem?_eq_getElem h]⟩

lemma bmInner_spec (text pattern : List Char) :
    ∀ (fuel : Nat) (j k : Int),
      -1 ≤ j → j < (pattern.length : Int) → k < (text.length : Int) → j ≤ k →
      (j + 2).toNat ≤ fuel →
      ∃ j2 k2, bmInner text pattern fuel j k = some (j2, k2) ∧
        -1 ≤ j2 ∧ j2 ≤ j ∧ k - j = k2 - j2 := by
  intro fuel
  induction fuel with
  | zero =>
    intro j k hjm1 hjm hkn hjk hfuel
    omega
  | succ fuel ih =>
    intro j k hjm1 hjm hkn hjk hfuel
    rw [bmInner]
    by_cases hj : 0 ≤ j
    · obtain ⟨tc, htc⟩ := pyGet?_isSome text k (by omega) hkn
      obtain ⟨pc, hpc⟩ := pyGet?_isSome pattern j hj hjm
      rw [if_pos hj, htc, hpc]
      dsimp only
      by_cases hcc : tc = pc
      · rw [if_pos hcc]
        obtain ⟨j2, k2, hrec, h1, h2, h3⟩ := ih (j - 1) (k - 1)
          (by omega) (by omega) (by omega) (by omega) (by omega)
        exact ⟨j2, k2, hrec, h1, by omega, by omega⟩
      · rw [if_neg hcc]
        exact ⟨j, k, rfl, by omega, le_refl j, by omega⟩
    · rw [if_neg hj]
      exact ⟨j, k, rfl, by omega, le_refl j, by omega⟩

lemma bmShiftStep_advance (p : List Char) (hp : p ≠ []) (i : Int) (c : Char) :
    i + 1 ≤ bmShiftStep (build_shift_table p) p.length i c := by
  unfold bmShiftStep
  cases hl : List.lookup c (build_shift_table p) with
  | none =>
    have : 1 ≤ p.length := List.length_pos.2 hp
    dsimp only
    omega
  | some s =>
    have := lookup_build_shift_table_pos p hp c s hl
    dsimp only
    omega

lemma bmOuter_spec (text pattern : List Char) (hp : pattern ≠ []) :
    ∀ (fuel : Nat) (i : Int),
      (pattern.length : Int) - 1 ≤ i →
      ((text.length : Int) - i).toNat + 1 ≤ fuel →
      ∃ r, bmOuter text pattern (build_shift_table pattern) fuel i = some r := by
  intro fuel
  induction fuel with
  | zero =>
    intro i hi hfuel
    omega
  | succ fuel ih =>
    intro i hi hfuel
    have hm1 : 1 ≤ pattern.length := List.length_pos.2 hp
    rw [bmOuter]
    by_cases hin : i < (text.length : Int)
    · rw [if_pos hin]
      obtain ⟨j2, k2, hinner, hj2ge, hj2le, hdiff⟩ :=
        bmInner_spec text pattern (pattern.length + 2) ((pattern.length : Int) - 1) i
          (by omega) (by omega) hin (by omega) (by omega)
      rw [hinner]
      dsimp only
      by_cases hj2 : j2 = -1
      · rw [if_pos hj2]
        exact ⟨k2 + 1, rfl⟩
      · rw [if_neg hj2]
        obtain ⟨c, hc⟩ := pyGet?_isSome text k2 (by omega) (by omega)
        rw [hc]
        have hadv := bmShiftStep_advance pattern hp i c
        exact ih (bmShiftStep (build_shift_table pattern) pattern.length i c)
          (by omega) (by omega)
    · rw [if_neg hin]
      exact ⟨-1, rfl⟩

lemma boyer_moore_search_isSome (text pattern : List Char) :
    ∃ r, boyer_moore_search text pattern = some r := by
  unfold boyer_moore_search
  by_cases h1 : text.length < pattern.length
  · rw [if_pos h1]
    exact ⟨-1, rfl⟩
  · rw [if_neg h1]
    by_cases h2 : pattern = []
    · rw [if_pos h2]
      exact ⟨0, rfl⟩
    · rw [if_neg h2]
      exact bmOuter_spec text pattern h2 (text.length + 2) ((pattern.length : Int) - 1)
        (le_refl _) (by omega)

lemma kmpLoop_spec (text pattern : List Char) (lps : List Nat)
    (hlps_len : lps.length = pattern.length)
    (hlps_le : ∀ t, t < pattern.length → lps.getD t 0 ≤ t) :
    ∀ (fuel i j : Nat),
      j < pattern.length → j ≤ i → i ≤ text.length →
      2 * (text.length - i) + j + 1 ≤ fuel →
      ∃ r, kmpLoop text pattern lps text.length pattern.length fuel i j = some r := by
  intro fuel
  induction fuel with
  | zero =>
    intro i j hjm hji hin hfuel
    omega
  | succ fuel ih =>
    intro i j hjm hji hin hfuel
    rw [kmpLoop]
    by_cases hi : i < text.length
    · rw [if_pos hi]
      obtain ⟨pj, hpj⟩ := get?_isSome pattern j hjm
      obtain ⟨ti, hti⟩ := get?_isSome text i hi
      rw [hpj, hti]
      dsimp only
      by_cases hpt : pj = ti
      · rw [if_pos hpt]
        dsimp only
        by_cases hjm2 : j + 1 = pattern.length
        · rw [if_pos hjm2]
          exact ⟨_, rfl⟩
        · rw [if_neg hjm2]
          have hjm2' : j + 1 < pattern.length := by omega
          by_cases hi2 : i + 1 < text.length
          · rw [if_pos hi2]
            obtain ⟨pj2, hpj2⟩ := get?_isSome pattern (j + 1) hjm2'
            obtain ⟨ti2, hti2⟩ := get?_isSome text (i + 1) hi2
            rw [hpj2, hti2]
            dsimp only
            by_cases hne : pj2 ≠ ti2
            · rw [if_pos hne, if_pos (Nat.succ_ne_zero j)]
              have hjl : j + 1 - 1 < lps.length := by omega
              obtain ⟨l, hl⟩ := get?_isSome lps (j + 1 - 1) hjl
              rw [hl]
              have hlval : l = lps.getD (j + 1 - 1) 0 := by
                rw [List.get?_eq_getElem?, List.getElem?_eq_getElem hjl] at hl
                rw [List.getD_eq_getElem lps 0 hjl]
                exact (Option.some.inj hl).symm
              have hlle : l ≤ j := by
                have := hlps_le (j + 1 - 1) (by omega)
                omega
              exact ih (i + 1) l (by omega) (by omega) (by omega) (by omega)
            · rw [if_neg hne]
              exact ih (i + 1) (j + 1) (by omega) (by omega) (by omega) (by omega)
          · rw [if_neg hi2]
            exact ih (i + 1) (j + 1) (by omega) (by omega) (by omega) (by omega)
      · rw [if_neg hpt]
        dsimp only
        rw [if_neg (by omega : ¬j = pattern.length), if_pos hi]
        rw [hpj, hti]
        dsimp only
        rw [if_pos hpt]
        by_cases hj0 : j ≠ 0
        · rw [if_pos hj0]
          have hjl : j - 1 < lps.length := by omega
          obtain ⟨l, hl⟩ := get?_isSome lps (j - 1) hjl
          rw [hl]
          have hlval : l = lps.getD (j - 1) 0 := by
            rw [List.get?_eq_getElem?, List.getElem?_eq_getElem hjl] at hl
            rw [List.getD_eq_getElem lps 0 hjl]
            exact (Option.some.inj hl).symm
          have hlle : l ≤ j - 1 := by
            have := hlps_le (j - 1) (by omega)
            omega
          exact ih i l (by omega) (by omega) (by omega) (by omega)
        · rw [if_neg hj0]
          push_neg at hj0
          subst hj0
          exact ih (i + 1) 0 (by omega) (by omega) (by omega) (by omega)
    · rw [if_neg hi]
      exact ⟨-1, rfl⟩

lemma kmp_search_isSome (text pattern : List Char) :
    ∃ r, kmp_search text pattern = some r := by
  unfold kmp_search
  by_cases h2 : pattern = []
  · rw [if_pos h2]
    exact ⟨0, rfl⟩
  · rw [if_neg h2]
    dsimp only
    by_cases h1 : text.length < pattern.length
    · rw [if_pos h1]
      exact ⟨-1, rfl⟩
    · rw [if_neg h1]
      obtain ⟨lps, heq, hlen, hspec⟩ := compute_lps_spec pattern
      rw [heq]
      have hm1 : 1 ≤ pattern.length := List.length_pos.2 h2
      exact kmpLoop_spec text pattern lps hlen
        (fun t ht => by rw [hspec t ht]; exact lpsSpec_le pattern t)
        (2 * text.length + 1) 0 0 (by omega) (by omega) (by omega) (by omega)

lemma rkInitHashes_isSome (text pattern : List Char) (q d : Int) :
    ∀ (steps i : Nat) (ph th : Int),
      i + steps ≤ pattern.length → i + steps ≤ text.length →
      ∃ out, rkInitHashes text pattern q d i steps (ph, th) = some out := by
  intro steps
  induction steps with
  | zero =>
    intro i ph th _ _
    exact ⟨(ph, th), rfl⟩
  | succ steps ih =>
    intro i ph th hp ht
    rw [rkInitHashes]
    obtain ⟨pc, hpc⟩ := get?_isSome pattern i (by omega)
    obtain ⟨tc, htc⟩ := get?_isSome text i (by omega)
    rw [hpc, htc]
    exact ih (i + 1) _ _ (by omega) (by omega)

lemma rkVerify_isSome (text pattern : List Char) (i : Nat) :
    ∀ (steps j : Nat),
      j + steps ≤ pattern.length → i + j + steps ≤ text.length →
      ∃ b, rkVerify text pattern i j steps = some b := by
  intro steps
  induction steps with
  | zero =>
    intro j _ _
    exact ⟨true, rfl⟩
  | succ steps ih =>
    intro j hp ht
    rw [rkVerify]
    obtain ⟨tc, htc⟩ := get?_isSome text (i + j) (by omega)
    obtain ⟨pc, hpc⟩ := get?_isSome pattern j (by omega)
    rw [htc, hpc]
    dsimp only
    by_cases hne : tc ≠ pc
    · rw [if_pos hne]
      exact ⟨false, rfl⟩
    · rw [if_neg hne]
      exact ih (j + 1) (by omega) (by omega)

lemma rkLoop_isSome (text pattern : List Char) (q d h ph : Int)
    (hm : 1 ≤ pattern.length) (hmn : pattern.length ≤ text.length) :
    ∀ (rem i : Nat) (th : Int),
      i + rem = text.length - pattern.length + 1 →
      ∃ r, rkLoop text pattern q d h text.length pattern.length ph i rem th = some r := by
  intro rem
  induction rem with
  | zero =>
    intro i th _
    exact ⟨-1, rfl⟩
  | succ rem ih =>
    intro i th hinv
    have hile : i ≤ text.length - pattern.length := by omega
    rw [rkLoop]
    have hcheck : ∃ c, (if ph = th then
        match rkVerify text pattern i 0 pattern.length with
        | none => none
        | some true => some (some (i : Int))
        | some false => some none
      else some none) = some c ∧ (c = none ∨ ∃ r0, c = some r0) := by
      by_cases hph : ph = th
      · rw [if_pos hph]
        obtain ⟨b, hb⟩ := rkVerify_isSome text pattern i pattern.length 0
          (by omega) (by omega)
        rw [hb]
        cases b with
        | true => exact ⟨some (i : Int), rfl, Or.inr ⟨_, rfl⟩⟩
        | false => exact ⟨none, rfl, Or.inl rfl⟩
      · rw [if_neg hph]
        exact ⟨none, rfl, Or.inl rfl⟩
    obtain ⟨c, hc, hcases⟩ := hcheck
    rw [hc]
    rcases hcases with rfl | ⟨r0, rfl⟩
    · dsimp only
      by_cases hlt : i < text.length - pattern.length
      · rw [if_pos hlt]
        obtain ⟨a, ha⟩ := get?_isSome text i (by omega)
        obtain ⟨b2, hb2⟩ := get?_isSome text (i + pattern.length) (by omega)
        rw [ha, hb2]
        exact ih (i + 1) _ (by omega)
      · rw [if_neg hlt]
        exact ih (i + 1) _ (by omega)
    · exact ⟨r0, rfl⟩

lemma rabin_karp_search_isSome (text pattern : List Char) :
    ∃ r, rabin_karp_search text pattern = some r := by
  unfold rabin_karp_search
  by_cases h2 : pattern = []
  · rw [if_pos h2]
    exact ⟨0, rfl⟩
  · rw [if_neg h2]
    dsimp only
    by_cases h1 : text.length < pattern.length
    · rw [if_pos h1]
      exact ⟨-1, rfl⟩
    · rw [if_neg h1]
      have hm1 : 1 ≤ pattern.length := List.length_pos.2 h2
      obtain ⟨out, hout⟩ := rkInitHashes_isSome text pattern 101 256
        pattern.length 0 0 0 (by omega) (by omega)
      rw [hout]
      obtain ⟨ph, th⟩ := out
      exact rkLoop_isSome text pattern 101 256 _ ph hm1 (by omega)
        (text.length - pattern.length + 1) 0 th (by omega)

/-- C9: none of the three matchers can fail on any input: every list
access inside their loops is in bounds and every loop terminates, so
each embedded function returns `some` result for all texts and
patterns. -/
theorem matchers_never_raise (text pattern : List Char) :
    (boyer_moore_search text pattern).isSome = true ∧
    (kmp_search text pattern).isSome = true ∧
    (rabin_karp_search text pattern).isSome = true := by
  obtain ⟨r1, h1⟩ := boyer_moore_search_isSome text pattern
  obtain ⟨r2, h2⟩ := kmp_search_isSome text pattern
  obtain ⟨r3, h3⟩ := rabin_karp_search_isSome text pattern
  rw [h1, h2, h3]
  exact ⟨rfl, rfl, rfl⟩

/-! ## C10: the Rabin-Karp rolling hash invariant

`polyHash` is the specification's polynomial window hash (Horner's
method, base 256, modulo 101) — textually the same update the code's
initialisation loop applies.  `rawHash` is the same polynomial without
the modulus, used to reason about the rolling identity. -/

lemma foldl_mod_eq (s : List Char) :
    ∀ acc : Int,
      s.foldl (fun acc c => (256 * acc + ord c) % 101) (acc % 101) =
        (s.foldl (fun acc c => 256 * acc + ord c) acc) % 101 := by
  induction s with
  | nil => intro acc; rfl
  | cons c s ih =>
    intro acc
    simp only [List.foldl_cons]
    have hstep : (256 * (acc % 101) + ord c) % 101 = (256 * acc + ord c) % 101 := by
      conv_lhs => rw [Int.add_emod, Int.mul_emod, Int.emod_emod_of_dvd acc dvd_rfl,
        ← Int.mul_emod, ← Int.add_emod]
    rw [hstep, ← ih (256 * acc + ord c)]

lemma polyHash_eq_rawHash (s : List Char) : polyHash s = rawHash s % 101 := by
  have h := foldl_mod_eq s 0
  rw [Int.zero_emod] at h
  exact h

lemma polyHash_range (s : List Char) : 0 ≤ polyHash s ∧ polyHash s < 101 := by
  rw [polyHash_eq_rawHash]
  exact ⟨Int.emod_nonneg _ (by norm_num), Int.emod_lt_of_pos _ (by norm_num)⟩

lemma rawHash_append (s : List Char) (c : Char) :
    rawHash (s ++ [c]) = 256 * rawHash s + ord c := by
  simp [rawHash, List.foldl_append]

lemma rawHash_foldl_acc (s : List Char) :
    ∀ acc : Int,
      s.foldl (fun acc c => 256 * acc + ord c) acc =
        acc * 256 ^ s.length + rawHash s := by
  induction s with
  | nil => intro acc; simp [rawHash]
  | cons c s ih =>
    intro acc
    simp only [List.foldl_cons, List.length_cons]
    rw [ih (256 * acc + ord c)]
    have hr : rawHash (c :: s) = (ord c) * 256 ^ s.length + rawHash s := by
      show s.foldl (fun acc c => 256 * acc + ord c) (256 * 0 + ord c) = _
      rw [ih (256 * 0 + ord c)]
      ring
    rw [hr]
    ring

lemma rawHash_cons (a : Char) (u : List Char) :
    rawHash (a :: u) = ord a * 256 ^ u.length + rawHash u := by
  show u.foldl (fun acc c => 256 * acc + ord c) (256 * 0 + ord a) = _
  rw [rawHash_foldl_acc u (256 * 0 + ord a)]
  ring

/-- The code's rolling update maps the hash of window `i` to the hash of
window `i+1`. -/
lemma rkRoll_window (text : List Char) (m i : Nat) (hm : 1 ≤ m)
    (h2 : i + m < text.length) :
    rkRoll 101 256 ((256 ^ (m - 1) : Int) % 101)
        (polyHash ((text.drop i).take m)) (text.getD i dChar)
        (text.getD (i + m) dChar)
      = polyHash ((text.drop (i + 1)).take m) := by
  have hilt : i < text.length := by omega
  set u := (text.drop (i + 1)).take (m - 1) with hu
  have hlenu : u.length = m - 1 := by
    rw [hu, List.length_take, List.length_drop, min_eq_left (by omega)]
  have hwi : (text.drop i).take m = text.getD i dChar :: u := by
    rw [List.drop_eq_getElem_cons hilt]
    have hm' : m = (m - 1) + 1 := by omega
    rw [hm', List.take_succ_cons, List.getD_eq_getElem text dChar hilt]
  have hwi1 : (text.drop (i + 1)).take m = u ++ [text.getD (i + m) dChar] := by
    have hlen2 : m - 1 < (text.drop (i + 1)).length := by
      rw [List.length_drop]
      omega
    have hts := List.take_succ (l := text.drop (i + 1)) (n := m - 1)
    rw [List.getElem?_eq_getElem hlen2] at hts
    have hm' : m - 1 + 1 = m := by omega
    rw [hm'] at hts
    have hvals : (text.drop (i + 1))[m - 1] = text.getD (i + m) dChar := by
      rw [List.getElem_drop, List.getD_eq_getElem text dChar (by omega)]
      simp only [show i + 1 + (m - 1) = i + m from by omega]
    rw [hts, hvals, hu]
    simp
  rw [hwi, hwi1, polyHash_eq_rawHash, polyHash_eq_rawHash, rawHash_cons,
    rawHash_append, hlenu]
  unfold rkRoll
  set a := text.getD i dChar
  set b := text.getD (i + m) dChar
  set P : Int := 256 ^ (m - 1)
  set W : Int := rawHash u
  have h1 : Int.ModEq 101 ((ord a * P + W) % 101) (ord a * P + W) :=
    Int.emod_emod_of_dvd _ dvd_rfl
  have h2m : Int.ModEq 101 (P % 101) P := Int.emod_emod_of_dvd _ dvd_rfl
  have hchain : (256 * ((ord a * P + W) % 101 - ord a * (P % 101)) + ord b) % 101 =
      (256 * (ord a * P + W - ord a * P) + ord b) % 101 := by
    have hmod : Int.ModEq 101 (256 * ((ord a * P + W) % 101 - ord a * (P % 101)) + ord b)
        (256 * (ord a * P + W - ord a * P) + ord b) :=
      ((Int.ModEq.refl 256).mul ((h1).sub ((Int.ModEq.refl (ord a)).mul h2m))).add
        (Int.ModEq.refl (ord b))
    exact hmod
  have hsimp : 256 * (ord a * P + W - ord a * P) + ord b = 256 * W + ord b := by ring
  rw [hsimp] at hchain
  dsimp only
  rw [hchain]
  rw [if_neg (not_lt.2 (Int.emod_nonneg _ (by norm_num)))]

/-- The initialisation loop computes the Horner hashes of the pattern
and of any aligned text segment. -/
lemma rkInitHashes_eq (text pattern : List Char) :
    ∀ (steps i : Nat) (ph th : Int),
      i + steps ≤ pattern.length → i + steps ≤ text.length →
      rkInitHashes text pattern 101 256 i steps (ph, th) =
        some (((pattern.drop i).take steps).foldl
            (fun acc c => (256 * acc + ord c) % 101) ph,
          ((text.drop i).take steps).foldl
            (fun acc c => (256 * acc + ord c) % 101) th) := by
  intro steps
  induction steps with
  | zero =>
    intro i ph th _ _
    simp [rkInitHashes]
  | succ steps ih =>
    intro i ph th hp ht
    have hpi : i < pattern.length := by omega
    have hti : i < text.length := by omega
    rw [rkInitHashes]
    rw [List.get?_eq_getElem?, List.getElem?_eq_getElem hpi,
      List.get?_eq_getElem?, List.getElem?_eq_getElem hti]
    dsimp only
    rw [ih (i + 1) _ _ (by omega) (by omega)]
    have hps : (pattern.drop i).take (steps + 1) =
        pattern[i] :: (pattern.drop (i + 1)).take steps := by
      rw [List.drop_eq_getElem_cons hpi, List.take_succ_cons]
    have hts : (text.drop i).take (steps + 1) =
        text[i] :: (text.drop (i + 1)).take steps := by
      rw [List.drop_eq_getElem_cons hti, List.take_succ_cons]
    rw [hps, hts]
    simp only [List.foldl_cons]

/-- C10: with a non-empty pattern no longer than the text, the code's
hash initialisation returns exactly the Horner hashes of the pattern and
of the first window; every window's hash lies in `[0, 101)`; and the
code's rolling update `rkRoll` carries the hash of window `i` to the
hash of window `i+1`, so the threaded `text_hash` equals the polynomial
hash of `text[i : i+m]` at every window start `i`. -/
theorem rabin_karp_rolling_hash (text pattern : List Char)
    (hm : 0 < pattern.length) (hmn : pattern.length ≤ text.length) :
    (rkInitHashes text pattern 101 256 0 pattern.length (0, 0) =
      some (polyHash pattern, polyHash (text.take pattern.length))) ∧
    (∀ i, i + pattern.length ≤ text.length →
      0 ≤ polyHash ((text.drop i).take pattern.length) ∧
      polyHash ((text.drop i).take pattern.length) < 101) ∧
    (∀ i, i + pattern.length < text.length →
      rkRoll 101 256 ((256 ^ (pattern.length - 1) : Int) % 101)
          (polyHash ((text.drop i).take pattern.length))
          (text.getD i dChar) (text.getD (i + pattern.length) dChar)
        = polyHash ((text.drop (i + 1)).take pattern.length)) := by
  refine ⟨?_, fun i _ => polyHash_range _, fun i hi => rkRoll_window text _ i hm hi⟩
  rw [rkInitHashes_eq text pattern pattern.length 0 0 0 (by omega) (by omega)]
  rw [List.drop_zero, List.drop_zero, List.take_length]
  rfl

/-- Witness for C10 at text `abc`, pattern `ab`. -/
theorem rabin_karp_rolling_hash_witness :
    rkInitHashes ['a','b','c'] ['a','b'] 101 256 0 2 (0, 0) =
      some (polyHash ['a','b'], polyHash (['a','b','c'].take 2)) :=
  (rabin_karp_rolling_hash ['a','b','c'] ['a','b'] (by decide) (by decide)).1

/-! ## C2: binary search

The source array holds Python floats, but `binary_search` only compares
its elements (`==`, `<`), so the embedding works over `ℚ`, on which the
comparisons of the spec's decimal constants behave identically. -/

lemma pyGet?_eq {α : Type} (l : List α) (i : Int) (d : α) (h0 : 0 ≤ i)
    (h1 : i < (l.length : Int)) : pyGet? l i = some (l.getD i.toNat d) := by
  unfold pyGet?
  rw [if_pos ⟨h0, h1⟩, List.get?_eq_getElem?, List.getElem?_eq_getElem (by omega),
    List.getD_eq_getElem l d (by omega)]

lemma getD_mem_rat (arr : List ℚ) (j : Nat) (hj : j < arr.length) :
    arr.getD j 0 ∈ arr := by
  rw [List.getD_eq_getElem arr 0 hj]
  exact List.getElem_mem hj

lemma mem_getD_rat (arr : List ℚ) (y : ℚ) (hy : y ∈ arr) :
    ∃ j : Nat, j < arr.length ∧ arr.getD j 0 = y := by
  obtain ⟨n, hn⟩ := List.mem_iff_get.1 hy
  refine ⟨n.1, n.2, ?_⟩
  rw [List.getD_eq_getElem arr 0 n.2, ← List.get_eq_getElem]
  exact hn

lemma sorted_getD_le (arr : List ℚ) (hs : List.Sorted (· ≤ ·) arr) (i j : Nat)
    (hij : i ≤ j) (hj : j < arr.length) : arr.getD i 0 ≤ arr.getD j 0 := by
  rcases Nat.eq_or_lt_of_le hij with rfl | hlt
  · exact le_refl _
  · have hi : i < arr.length := by omega
    rw [List.getD_eq_getElem arr 0 hi, List.getD_eq_getElem arr 0 hj]
    have := hs.rel_get_of_lt (a := ⟨i, hi⟩) (b := ⟨j, hj⟩) (Fin.mk_lt_mk.2 hlt)
    rwa [List.get_eq_getElem, List.get_eq_getElem] at this

lemma binary_search_loop_correct (arr : List ℚ) (target : ℚ)
    (hs : List.Sorted (· ≤ ·) arr) :
    ∀ (fuel : Nat) (left right : Int) (iters : Nat),
      0 ≤ left → right < (arr.length : Int) →
      (∀ j : Nat, (j : Int) < left → j < arr.length → arr.getD j 0 < target) →
      (∀ j : Nat, right < (j : Int) → j < arr.length → target < arr.getD j 0) →
      (right - left + 1).toNat + 1 ≤ fuel →
      ∃ (iters2 : Nat) (r : Option ℚ),
        binary_search_loop arr target fuel left right iters = some (iters2, r) ∧
        (target ∈ arr → r = some target) ∧
        (∀ x, r = some x → x ∈ arr ∧ target ≤ x ∧ ∀ y ∈ arr, target ≤ y → x ≤ y) ∧
        (r = none → ∀ y ∈ arr, y < target) := by
  intro fuel
  induction fuel with
  | zero =>
    intro left right iters h0 hr hL hR hfuel
    omega
  | succ fuel ih =>
    intro left right iters h0 hr hL hR hfuel
    rw [binary_search_loop]
    by_cases hlr : left ≤ right
    · rw [if_pos hlr]
      dsimp only
      set mid := Int.fdiv (left + right) 2 with hmid
      have hmb : left ≤ mid ∧ mid ≤ right := by
        have h1 := Int.fdiv_add_fmod (left + right) 2
        have h2 : 0 ≤ Int.fmod (left + right) 2 :=
          Int.fmod_nonneg (by omega) (by norm_num)
        have h3 : Int.fmod (left + right) 2 < 2 :=
          Int.fmod_lt_of_pos (left + right) (by norm_num)
        omega
      rw [pyGet?_eq arr mid 0 (by omega) (by omega)]
      dsimp only
      set x := arr.getD mid.toNat 0 with hx
      have hmidlen : mid.toNat < arr.length := by omega
      by_cases hfound : x = target
      · rw [if_pos hfound]
        refine ⟨iters + 1, some x, rfl, fun _ => by rw [hfound], fun x2 hx2 => ?_, ?_⟩
        · have hxx : x2 = x := (Option.some.inj hx2).symm
          subst hxx
          exact ⟨getD_mem_rat arr mid.toNat hmidlen, by rw [hfound],
            fun y hy hty => by rw [hfound]; exact hty⟩
        · intro h
          exact Option.noConfusion h
      · rw [if_neg hfound]
        by_cases hlt : x < target
        · rw [if_pos hlt]
          apply ih (mid + 1) right (iters + 1) (by omega) hr
          · intro j hj hjlen
            have hjm : j ≤ mid.toNat := by omega
            have := sorted_getD_le arr hs j mid.toNat hjm hmidlen
            calc arr.getD j 0 ≤ x := this
              _ < target := hlt
          · exact hR
          · omega
        · rw [if_neg hlt]
          have hgt : target < x :=
            lt_of_le_of_ne (le_of_not_lt hlt) (fun e => hfound e.symm)
          apply ih left (mid - 1) (iters + 1) h0 (by omega) hL
          · intro j hj hjlen
            have hjm : mid.toNat ≤ j := by omega
            have := sorted_getD_le arr hs mid.toNat j hjm hjlen
            calc target < x := hgt
              _ ≤ arr.getD j 0 := this
          · omega
    · rw [if_neg hlr]
      have hnotin : target ∈ arr → False := by
        intro hmem
        obtain ⟨j, hjlen, hjv⟩ := mem_getD_rat arr target hmem
        rcases lt_or_ge (j : Int) left with hjl | hjl
        · have := hL j hjl hjlen
          rw [hjv] at this
          exact lt_irrefl _ this
        · have := hR j (by omega) hjlen
          rw [hjv] at this
          exact lt_irrefl _ this
      by_cases hl2 : left < (arr.length : Int)
      · rw [if_pos hl2, pyGet?_eq arr left 0 h0 hl2]
        refine ⟨iters, some (arr.getD left.toNat 0), rfl,
          fun hmem => absurd hmem (fun h => hnotin h), fun x2 hx2 => ?_, ?_⟩
        · have hxx : x2 = arr.getD left.toNat 0 := (Option.some.inj hx2).symm
          subst hxx
          have hlen : left.toNat < arr.length := by omega
          refine ⟨getD_mem_rat arr left.toNat hlen, ?_, ?_⟩
          · exact le_of_lt (hR left.toNat (by omega) hlen)
          · intro y hy hty
            obtain ⟨j, hjlen, hjv⟩ := mem_getD_rat arr y hy
            rcases lt_or_ge (j : Int) left with hjl | hjl
            · have := hL j hjl hjlen
              rw [hjv] at this
              exact absurd hty (not_le.2 this)
            · have hjm : left.toNat ≤ j := by omega
              rw [← hjv]
              exact sorted_getD_le arr hs left.toNat j hjm hjlen
        · intro h
          exact Option.noConfusion h
      · rw [if_neg hl2]
        refine ⟨iters, none, rfl, fun hmem => absurd hmem (fun h => hnotin h),
          fun x2 hx2 => Option.noConfusion hx2, fun _ y hy => ?_⟩
        obtain ⟨j, hjlen, hjv⟩ := mem_getD_rat arr y hy
        rw [← hjv]
        exact hL j (by omega) hjlen

lemma testArr_eq_mkRat :
    testArr = [mkRat 1 10, mkRat 12 10, mkRat 23 10, mkRat 34 10, mkRat 45 10,
      mkRat 56 10, mkRat 67 10, mkRat 78 10, mkRat 89 10, mkRat 90 10] := by
  norm_num [testArr, Rat.mkRat_eq_div]

/-- C2: on every sorted rational array, `binary_search` returns an
iteration count paired with the exact element when the target occurs,
otherwise with the smallest element at or above the target, and with
`none` exactly when the target exceeds every element; on the spec's
array it returns the upper bound 4.5 (after 4 ≥ 1 iterations) for
target 4 and `none` for target 10. -/
theorem binary_search_correct :
    (∀ (arr : List ℚ) (target : ℚ), List.Sorted (· ≤ ·) arr →
      ∃ (iters : Nat) (r : Option ℚ),
        binary_search arr target = some (iters, r) ∧
        (target ∈ arr → r = some target) ∧
        (∀ x, r = some x → x ∈ arr ∧ target ≤ x ∧ ∀ y ∈ arr, target ≤ y → x ≤ y) ∧
        (r = none ↔ ∀ y ∈ arr, y < target)) ∧
    (∃ iters : Nat, 1 ≤ iters ∧ binary_search testArr 4 = some (iters, some 4.5)) ∧
    binary_search testArr 10 = some (4, none) := by
  refine ⟨fun arr target hs => ?_, ?_, ?_⟩
  · obtain ⟨i2, r, heq, hmem, hsome, hnone⟩ :=
      binary_search_loop_correct arr target hs (arr.length + 1) 0
        ((arr.length : Int) - 1) 0 (by omega) (by omega)
        (fun j hj _ => absurd hj (by omega))
        (fun j hj hjl => absurd hj (by omega))
        (by omega)
    refine ⟨i2, r, heq, hmem, hsome, hnone, ?_⟩
    intro hall
    cases hr : r with
    | none => rfl
    | some x =>
      obtain ⟨hx1, hx2, -⟩ := hsome x hr
      exact absurd hx2 (not_le.2 (hall x hx1))
  · refine ⟨4, by norm_num, ?_⟩
    rw [testArr_eq_mkRat, show (4.5 : ℚ) = mkRat 45 10 by norm_num [Rat.mkRat_eq_div]]
    decide
  · rw [testArr_eq_mkRat]
    decide

/-- Witness for C2 at the sorted array `[1, 2, 3]` and target 2. -/
theorem binary_search_correct_witness :
    ∃ (iters : Nat) (r : Option ℚ),
      binary_search ([1, 2, 3] : List ℚ) 2 = some (iters, r) ∧
      ((2 : ℚ) ∈ ([1, 2, 3] : List ℚ) → r = some 2) ∧
      (∀ x, r = some x → x ∈ ([1, 2, 3] : List ℚ) ∧ 2 ≤ x ∧
        ∀ y ∈ ([1, 2, 3] : List ℚ), 2 ≤ y → x ≤ y) ∧
      (r = none ↔ ∀ y ∈ ([1, 2, 3] : List ℚ), y < 2) :=
  binary_search_correct.1 [1, 2, 3] 2 (by decide)
